import Mathlib

/-!
Verification of the inline Markdown tokenizer in `src/markdown.rs`.

The Rust parser is embedded shallowly: the parser state (`offset`, `stack`)
is passed explicitly, the immutable character buffer `chars` is a fixed
parameter, Rust `panic!`/`todo!`/out-of-bounds indexing become the
`POutcome.panic` constructor, and the potentially non-terminating scan
loops are driven by an explicit fuel parameter whose exhaustion is the
`POutcome.diverge` constructor.  Bounded in-function `while` loops that
advance the cursor on every iteration are rendered as recursions on a gas
argument instantiated with `chars.length - offset` (resp. the loop's own
counter bound), which makes them exact images of the source loops.
-/

namespace Enki

/-- The backtick character, referred to by its code point so that the
source text of this file contains no raw backtick. -/
def btick : Char := Char.ofNat 96

/-- Header level enumeration from the source (`HeaderLevel`). -/
inductive HeaderLevel where
  | One | Two | Three | Four | Five | Six
  deriving DecidableEq

/-- Numeric value of a header level, used to state claims about levels. -/
def HeaderLevel.toNat : HeaderLevel → Nat
  | .One => 1
  | .Two => 2
  | .Three => 3
  | .Four => 4
  | .Five => 5
  | .Six => 6

/-- Inline token tree from the source (`TextToken`). -/
inductive TextToken where
  | Text : String → TextToken
  | Italic : List TextToken → TextToken
  | Bold : List TextToken → TextToken
  | BoldItalic : List TextToken → TextToken
  | Code : List TextToken → TextToken

/-- Block token from the source (`MarkdownToken`). -/
inductive MarkdownToken where
  | Header : HeaderLevel → List TextToken → MarkdownToken
  | NewLine : MarkdownToken
  | Paragraph : List TextToken → MarkdownToken

/-- The distinct abrupt-termination sites of the source. -/
inductive PanicKind where
  | unexpectedToken : Char → PanicKind
  | todoTextParsing : PanicKind
  | invalidSpecialCharacter : String → PanicKind
  | indexOutOfBounds : PanicKind
  deriving DecidableEq

/-- Result of running an embedded parser function: a value, a Rust panic,
or fuel exhaustion (modelling non-termination of the source loops). -/
inductive POutcome (α : Type) where
  | ok : α → POutcome α
  | panic : PanicKind → POutcome α
  | diverge : POutcome α

/-- Body of the scanning loop of `parse_text` (markdown.rs:183-192):
accumulate characters until a backtick, a star, a newline, or the end of
input.  The gas argument is instantiated with `chars.length - offset`;
since every iteration advances `offset` by one this renders the source
loop exactly. -/
def parse_text_go (chars : List Char) : Nat → Nat → List Char × Nat
  | 0, offset => ([], offset)
  | gas+1, offset =>
    match chars[offset]? with
    | some ch =>
      if ch = btick ∨ ch = '*' ∨ ch = '\n' then ([], offset)
      else
        let (cs, o) := parse_text_go chars gas (offset+1)
        (ch :: cs, o)
    | none => ([], offset)

/-- The source function `parse_text` (markdown.rs:180-197). -/
def parse_text (chars : List Char) (offset : Nat) : TextToken × Nat :=
  let (cs, o) := parse_text_go chars (chars.length - offset) offset
  (.Text ⟨cs⟩, o)

/-- The run-counting loop at the top of `get_styled_text_token`
(markdown.rs:136-140): read up to 3 consecutive copies of the special
character.  The recursion is on `3 - ch_count`, exactly the source's
loop bound. -/
def spec_run_go (chars : List Char) (spec_ch : Char) : Nat → Nat → List Char × Nat
  | 0, offset => ([], offset)
  | rem+1, offset =>
    match chars[offset]? with
    | some ch =>
      if ch = spec_ch then
        let (cs, o) := spec_run_go chars spec_ch rem (offset+1)
        (spec_ch :: cs, o)
      else ([], offset)
    | none => ([], offset)

/-- The scanning loop of `is_styled_text_token_closure`
(markdown.rs:218-222): read the maximal run of the special character at
the probe offset (no length cap).  Gas is `chars.length - offset`. -/
def read_run_go (chars : List Char) (special_ch : Char) : Nat → Nat → List Char
  | 0, _ => []
  | gas+1, offset =>
    match chars[offset]? with
    | some ch =>
      if ch = special_ch then ch :: read_run_go chars special_ch gas (offset+1)
      else []
    | none => []

/-- The source function `is_styled_text_token_closure` (markdown.rs:211-227).
The source indexes `chars[offset]` and calls `stack.last().unwrap()`; both
are guarded by the caller (`offset` in bounds, stack non-empty), so the
default-valued reads below are never exercised with their defaults. -/
def is_styled_text_token_closure (chars : List Char) (offset : Nat)
    (stack : List String) : Bool :=
  let special_ch := chars.getD offset ' '
  let stack_str : String := String.join stack.reverse
  let read_chs : String := ⟨read_run_go chars special_ch (chars.length - offset) offset⟩
  decide (stack.getLast? = some read_chs) || decide (read_chs = stack_str)

/-- The source function `compact_text_token` (markdown.rs:199-209): pop the
top marker and wrap the accumulated children in the style it names.  The
`unwrap` on an empty stack and the catch-all `panic!` arm are rendered as
errors. -/
def compact_text_token (stack : List String) (tokens : List TextToken) :
    Except PanicKind (List String × TextToken) :=
  match stack.getLast? with
  | none => .error .indexOutOfBounds
  | some spec_ch_str =>
    let stack' := stack.dropLast
    if spec_ch_str = "*" then .ok (stack', .Italic tokens)
    else if spec_ch_str = "**" then .ok (stack', .Bold tokens)
    else if spec_ch_str = "***" then .ok (stack', .BoldItalic tokens)
    else if spec_ch_str = "`" ∨ spec_ch_str = "``" ∨ spec_ch_str = "```" then
      .ok (stack', .Code tokens)
    else .error (.invalidSpecialCharacter spec_ch_str)

mutual

/-- The source function `get_styled_text_token` (markdown.rs:129-178):
count the special-character run (at most 3), return an empty `Text` if
that run reaches the end of input, otherwise push the run on the stack
and scan children until a closure or the end of input. -/
def get_styled_text_token (chars : List Char) :
    Nat → Nat → List String → POutcome (TextToken × Nat × List String)
  | 0, _, _ => .diverge
  | fuel+1, offset, stack =>
    match chars[offset]? with
    | none => .panic .indexOutOfBounds
    | some spec_ch =>
      let (spec_characters, offset₁) := spec_run_go chars spec_ch 3 offset
      if offset₁ = chars.length then .ok (.Text "", offset₁, stack)
      else
        gstt_loop chars spec_ch fuel offset₁ (stack ++ [(⟨spec_characters⟩ : String)]) []

/-- The scanning loop of `get_styled_text_token` (markdown.rs:152-177),
including the end-of-input epilogue that wraps unclosed styles. -/
def gstt_loop (chars : List Char) (spec_ch : Char) :
    Nat → Nat → List String → List TextToken → POutcome (TextToken × Nat × List String)
  | 0, _, _, _ => .diverge
  | fuel+1, offset, stack, tokens =>
    match chars[offset]? with
    | some ch =>
      if ch = spec_ch then
        match stack.getLast? with
        | some last =>
          if is_styled_text_token_closure chars offset stack then
            match compact_text_token stack tokens with
            | .ok (stack₂, tok) => .ok (tok, offset + last.length, stack₂)
            | .error p => .panic p
          else
            match get_styled_text_token chars fuel offset stack with
            | .ok (tok, o₂, s₂) => gstt_loop chars spec_ch fuel o₂ s₂ (tokens ++ [tok])
            | .panic p => .panic p
            | .diverge => .diverge
        | none =>
          match get_styled_text_token chars fuel offset stack with
          | .ok (tok, o₂, s₂) => gstt_loop chars spec_ch fuel o₂ s₂ (tokens ++ [tok])
          | .panic p => .panic p
          | .diverge => .diverge
      else if ch = '*' ∨ ch = btick then
        match get_styled_text_token chars fuel offset stack with
        | .ok (tok, o₂, s₂) => gstt_loop chars spec_ch fuel o₂ s₂ (tokens ++ [tok])
        | .panic p => .panic p
        | .diverge => .diverge
      else
        let (tok, o₂) := parse_text chars offset
        gstt_loop chars spec_ch fuel o₂ stack (tokens ++ [tok])
    | none =>
      match stack.getLast? with
      | some _ =>
        match compact_text_token stack tokens with
        | .ok (stack₂, tok) => .ok (tok, offset, stack₂)
        | .error p => .panic p
      | none => .ok (.Text "", offset, stack)

end

/-- The scanning loop of `parse_text_tokens` (markdown.rs:111-124). -/
def ptt_loop (chars : List Char) :
    Nat → Nat → List String → List TextToken → POutcome (List TextToken × Nat × List String)
  | 0, _, _, _ => .diverge
  | fuel+1, offset, stack, tokens =>
    match chars[offset]? with
    | some ch =>
      if ch = '\n' then .ok (tokens, offset, stack)
      else if ch = '*' ∨ ch = btick then
        match get_styled_text_token chars fuel offset stack with
        | .ok (tok, o₂, s₂) => ptt_loop chars fuel o₂ s₂ (tokens ++ [tok])
        | .panic p => .panic p
        | .diverge => .diverge
      else
        let (tok, o₂) := parse_text chars offset
        ptt_loop chars fuel o₂ stack (tokens ++ [tok])
    | none => .ok (tokens, offset, stack)

/-- The source function `parse_text_tokens` (markdown.rs:104-127). -/
def parse_text_tokens (chars : List Char) (fuel offset : Nat) (stack : List String) :
    POutcome (List TextToken × Nat × List String) :=
  if offset = chars.length then .ok ([], offset, stack)
  else ptt_loop chars fuel offset stack []

/-- The hash-counting loop of `parse_header_or_text` (markdown.rs:68-71).
Gas is `chars.length - offset`, exact since each iteration advances the
cursor. -/
def count_hashes_go (chars : List Char) : Nat → Nat → Nat × Nat
  | 0, offset => (0, offset)
  | gas+1, offset =>
    match chars[offset]? with
    | some ch =>
      if ch = '#' then
        let (c, o) := count_hashes_go chars gas (offset+1)
        (c+1, o)
      else (0, offset)
    | none => (0, offset)

/-- The level-selection match of `parse_header_or_text` (markdown.rs:82-90):
counts of 7 or more (and the unreachable 0) fall to the catch-all `Six`. -/
def header_level_of_count : Nat → HeaderLevel
  | 1 => .One
  | 2 => .Two
  | 3 => .Three
  | 4 => .Four
  | 5 => .Five
  | 6 => .Six
  | _ => .Six

/-- The source function `parse_header` (markdown.rs:98-102). -/
def parse_header (chars : List Char) (fuel : Nat) (header_level : HeaderLevel)
    (offset : Nat) (stack : List String) : POutcome (MarkdownToken × Nat × List String) :=
  match parse_text_tokens chars fuel offset stack with
  | .ok (text_tokens, o, s) => .ok (.Header header_level text_tokens, o, s)
  | .panic p => .panic p
  | .diverge => .diverge

/-- The source function `parse_header_or_text` (markdown.rs:65-96): count
hashes, return an empty paragraph at end of input, parse a header body
after a space, and hit the `todo!` otherwise. -/
def parse_header_or_text (chars : List Char) (fuel offset : Nat) (stack : List String) :
    POutcome (MarkdownToken × Nat × List String) :=
  let (header_ch_count, offset₁) := count_hashes_go chars (chars.length - offset) offset
  if offset₁ = chars.length then .ok (.Paragraph [], offset₁, stack)
  else
    match chars[offset₁]? with
    | none => .panic .indexOutOfBounds
    | some current_ch =>
      if current_ch = ' ' then
        parse_header chars fuel (header_level_of_count header_ch_count) (offset₁+1) stack
      else .panic .todoTextParsing

/-- The source function `parse_new_line` (markdown.rs:229-233). -/
def parse_new_line (offset : Nat) : MarkdownToken × Nat := (.NewLine, offset + 1)

/-- The dispatch loop of `parse` (markdown.rs:50-58). -/
def parse_loop (chars : List Char) :
    Nat → Nat → List String → List MarkdownToken → POutcome (List MarkdownToken × Nat × List String)
  | 0, _, _, _ => .diverge
  | fuel+1, offset, stack, result =>
    match chars[offset]? with
    | some ch =>
      if ch = '#' then
        match parse_header_or_text chars fuel offset stack with
        | .ok (tok, o₂, s₂) => parse_loop chars fuel o₂ s₂ (result ++ [tok])
        | .panic p => .panic p
        | .diverge => .diverge
      else if ch = '\n' then
        let (tok, o₂) := parse_new_line offset
        parse_loop chars fuel o₂ stack (result ++ [tok])
      else .panic (.unexpectedToken ch)
    | none => .ok (result, offset, stack)

/-- The source entry point `MarkdownParser::new` plus `parse`
(markdown.rs:35-63): a fresh parser has cursor 0 and an empty stack. -/
def parse (fuel : Nat) (input : String) : POutcome (List MarkdownToken) :=
  match parse_loop input.data fuel 0 [] [] with
  | .ok (result, _, _) => .ok result
  | .panic p => .panic p
  | .diverge => .diverge

/-! ### Spec-side definitions

These definitions are phrased from the specification's words, to be
compared with the source-derived functions above. -/

/-- Characters that `parse_text` accumulates: anything that is not a
backtick, a star, or a newline (spec section 4.3 step 1a). -/
def plainChar (ch : Char) : Bool := !(ch == btick || ch == '*' || ch == '\n')

/-- Modelled from the spec: the "maximal run" of the character standing
at the cursor (glossary: "a maximal sequence of identical special
characters").  Used to state the close-vs-open decision rule. -/
def maximal_run (chars : List Char) (offset : Nat) : String :=
  ⟨(chars.drop offset).takeWhile (fun ch => ch == chars.getD offset ' ')⟩

/-- Modelled from the spec (section 4.3 step 2): the style node named by a
marker string; none for a string that names no style. -/
def styleNodeOfMarker (m : String) (children : List TextToken) : Option TextToken :=
  if m = "*" then some (.Italic children)
  else if m = "**" then some (.Bold children)
  else if m = "***" then some (.BoldItalic children)
  else if m = "`" ∨ m = "``" ∨ m = "```" then some (.Code children)
  else none

mutual

/-- Character accounting for one inline token, used to formalize the
span/conservation guarantee.  `CanWeigh b t n` says the token `t` can
account for exactly `n` consumed characters: a text node accounts its
content, a styled node accounts its children plus its opening delimiter
run and, when it was explicitly closed, the equally long closing run.
With `b = false` this is the strict accounting of the claim; `b = true`
additionally admits the empty `Text` node produced for a trailing
delimiter run of 1 to 3 characters at end of input. -/
inductive CanWeigh : Bool → TextToken → Nat → Prop where
  | text (b : Bool) (s : String) : CanWeigh b (.Text s) s.length
  | emptyRun (n : Nat) : 1 ≤ n → n ≤ 3 → CanWeigh true (.Text "") n
  | italic (b : Bool) (l : List TextToken) (m n : Nat) :
      CanWeighList b l m → n = 1 + m ∨ n = 2 + m → CanWeigh b (.Italic l) n
  | bold (b : Bool) (l : List TextToken) (m n : Nat) :
      CanWeighList b l m → n = 2 + m ∨ n = 4 + m → CanWeigh b (.Bold l) n
  | boldItalic (b : Bool) (l : List TextToken) (m n : Nat) :
      CanWeighList b l m → n = 3 + m ∨ n = 6 + m → CanWeigh b (.BoldItalic l) n
  | code (b : Bool) (l : List TextToken) (k m n : Nat) :
      CanWeighList b l m → 1 ≤ k → k ≤ 3 → n = k + m ∨ n = 2 * k + m →
      CanWeigh b (.Code l) n

/-- Character accounting for a token sequence: the sum of per-token
accounts.  Each character is counted by exactly one token. -/
inductive CanWeighList : Bool → List TextToken → Nat → Prop where
  | nil (b : Bool) : CanWeighList b [] 0
  | cons (b : Bool) (t : TextToken) (n : Nat) (l : List TextToken) (m : Nat) :
      CanWeigh b t n → CanWeighList b l m → CanWeighList b (t :: l) (n + m)

end

/-! ### List and string helpers -/

lemma getElem?_none_len {α : Type} {l : List α} {n : Nat} (h : l[n]? = none) :
    l.length ≤ n := by
  by_contra hc
  rw [List.getElem?_eq_getElem (Nat.lt_of_not_le hc)] at h
  exact Option.noConfusion h

lemma getElem?_some_lt {α : Type} {l : List α} {n : Nat} {a : α}
    (h : l[n]? = some a) : n < l.length := by
  by_contra hc
  rw [List.getElem?_eq_none (Nat.le_of_not_lt hc)] at h
  exact Option.noConfusion h

lemma getElem?_some_drop {α : Type} {l : List α} {n : Nat} {a : α}
    (h : l[n]? = some a) : l.drop n = a :: l.drop (n+1) := by
  have hlt : n < l.length := getElem?_some_lt h
  rw [List.drop_eq_getElem_cons hlt]
  rw [List.getElem?_eq_getElem hlt] at h
  simp_all

lemma drop_none_nil {α : Type} {l : List α} {n : Nat} (h : l[n]? = none) :
    l.drop n = [] :=
  List.drop_eq_nil_of_le (getElem?_none_len h)

lemma takeWhile_length_le {p : Char → Bool} (l : List Char) :
    (l.takeWhile p).length ≤ l.length := by
  induction l with
  | nil => simp
  | cons a l ih =>
    rw [List.takeWhile_cons]
    split <;> simp <;> omega

lemma takeWhile_append_all {p : Char → Bool} {xs ys : List Char}
    (h : ∀ x ∈ xs, p x = true) :
    (xs ++ ys).takeWhile p = xs ++ ys.takeWhile p := by
  induction xs with
  | nil => simp
  | cons a l ih =>
    have ha : p a = true := h a (by simp)
    simp only [List.cons_append, List.takeWhile_cons, ha, if_true]
    rw [ih (fun x hx => h x (by simp [hx]))]

lemma string_foldl_append (l : List String) :
    ∀ a b : String, List.foldl (fun r s => r ++ s) (a ++ b) l =
      a ++ List.foldl (fun r s => r ++ s) b l := by
  induction l with
  | nil => intro a b; rfl
  | cons x xs ih => intro a b; simp only [List.foldl_cons, String.append_assoc, ih]

lemma join_cons (s : String) (l : List String) :
    String.join (s :: l) = s ++ String.join l := by
  show List.foldl (fun r s => r ++ s) ("" ++ s) l = s ++ List.foldl (fun r s => r ++ s) "" l
  rw [show ("" ++ s : String) = s ++ "" by simp]
  exact string_foldl_append l s ""

lemma mk_length (l : List Char) : (⟨l⟩ : String).length = l.length := rfl

lemma length_le_join_of_getLast {stack : List String} {m : String}
    (h : stack.getLast? = some m) :
    m.length ≤ (String.join stack.reverse).length := by
  have hh : stack.reverse.head? = some m := by
    rw [List.head?_reverse]; exact h
  cases hr : stack.reverse with
  | nil => rw [hr] at hh; exact Option.noConfusion hh
  | cons x t =>
    rw [hr] at hh
    have hx : x = m := by simpa using hh
    subst hx
    rw [join_cons, String.length_append]
    omega

/-! ### Characterizations of the scanning loops -/

lemma read_run_go_eq (chars : List Char) (c : Char) :
    ∀ gas offset, chars.length - offset ≤ gas →
    read_run_go chars c gas offset = (chars.drop offset).takeWhile (fun ch => ch == c) := by
  intro gas
  induction gas with
  | zero =>
    intro offset h
    have : chars.drop offset = [] := List.drop_eq_nil_of_le (by omega)
    simp [read_run_go, this]
  | succ gas ih =>
    intro offset h
    rw [read_run_go]
    cases hc : chars[offset]? with
    | none => simp [drop_none_nil hc]
    | some ch =>
      rw [getElem?_some_drop hc, List.takeWhile_cons]
      have hlt : offset < chars.length := getElem?_some_lt hc
      by_cases hch : ch = c
      · simp only [hch, if_true, beq_self_eq_true]
        rw [ih (offset+1) (by omega)]
      · simp [hch]

lemma parse_text_go_eq (chars : List Char) :
    ∀ gas offset, chars.length - offset ≤ gas →
    parse_text_go chars gas offset =
      ((chars.drop offset).takeWhile plainChar,
       offset + ((chars.drop offset).takeWhile plainChar).length) := by
  intro gas
  induction gas with
  | zero =>
    intro offset h
    have : chars.drop offset = [] := List.drop_eq_nil_of_le (by omega)
    simp [parse_text_go, this]
  | succ gas ih =>
    intro offset h
    rw [parse_text_go]
    cases hc : chars[offset]? with
    | none => simp [drop_none_nil hc]
    | some ch =>
      rw [getElem?_some_drop hc, List.takeWhile_cons]
      have hlt : offset < chars.length := getElem?_some_lt hc
      by_cases hch : ch = btick ∨ ch = '*' ∨ ch = '\n'
      · have hp : plainChar ch = false := by
          unfold plainChar
          rcases hch with h1 | h1 | h1 <;> simp [h1]
        simp [hch, hp]
      · have hp : plainChar ch = true := by
          unfold plainChar
          push_neg at hch
          simp [hch.1, hch.2.1, hch.2.2]
        simp only [if_neg hch, hp, if_true]
        rw [ih (offset+1) (by omega)]
        simp [List.length_cons]
        omega

lemma count_hashes_go_eq (chars : List Char) :
    ∀ gas offset, chars.length - offset ≤ gas →
    count_hashes_go chars gas offset =
      (((chars.drop offset).takeWhile (fun ch => ch == '#')).length,
       offset + ((chars.drop offset).takeWhile (fun ch => ch == '#')).length) := by
  intro gas
  induction gas with
  | zero =>
    intro offset h
    have : chars.drop offset = [] := List.drop_eq_nil_of_le (by omega)
    simp [count_hashes_go, this]
  | succ gas ih =>
    intro offset h
    rw [count_hashes_go]
    cases hc : chars[offset]? with
    | none => simp [drop_none_nil hc]
    | some ch =>
      rw [getElem?_some_drop hc, List.takeWhile_cons]
      have hlt : offset < chars.length := getElem?_some_lt hc
      by_cases hch : ch = '#'
      · simp only [hch, if_true, beq_self_eq_true]
        rw [ih (offset+1) (by omega)]
        simp [List.length_cons]
        omega
      · simp [hch]

lemma spec_run_go_eq (chars : List Char) (c : Char) :
    ∀ rem offset,
    spec_run_go chars c rem offset =
      (List.replicate (min rem ((chars.drop offset).takeWhile (fun ch => ch == c)).length) c,
       offset + min rem ((chars.drop offset).takeWhile (fun ch => ch == c)).length) := by
  intro rem
  induction rem with
  | zero => intro offset; simp [spec_run_go]
  | succ rem ih =>
    intro offset
    rw [spec_run_go]
    cases hc : chars[offset]? with
    | none => simp [drop_none_nil hc]
    | some ch =>
      rw [getElem?_some_drop hc, List.takeWhile_cons]
      by_cases hch : ch = c
      · simp only [hch, if_true, beq_self_eq_true]
        rw [ih (offset+1)]
        have hmin : min (rem+1) (((chars.drop (offset+1)).takeWhile (fun ch => ch == c)).length + 1)
            = (min rem ((chars.drop (offset+1)).takeWhile (fun ch => ch == c)).length) + 1 := by
          omega
        simp [List.length_cons, hmin, List.replicate_succ]
        omega
      · simp [hch]

lemma parse_text_eq (chars : List Char) (offset : Nat) :
    parse_text chars offset =
      (.Text ⟨(chars.drop offset).takeWhile plainChar⟩,
       offset + ((chars.drop offset).takeWhile plainChar).length) := by
  unfold parse_text
  rw [parse_text_go_eq chars (chars.length - offset) offset (Nat.le_refl _)]

/-! ### Facts about `compact_text_token` and the closure test -/

lemma getLast?_ne_none {l : List String} (h : l ≠ []) : ∃ m, l.getLast? = some m := by
  induction l with
  | nil => exact absurd rfl h
  | cons a t ih =>
    cases t with
    | nil => exact ⟨a, rfl⟩
    | cons b u =>
      obtain ⟨m, hm⟩ := ih (by simp)
      exact ⟨m, by rw [List.getLast?_cons_cons]; exact hm⟩

lemma compact_dropLast {stack : List String} {tokens : List TextToken}
    {stack₂ : List String} {tok : TextToken}
    (h : compact_text_token stack tokens = .ok (stack₂, tok)) :
    stack₂ = stack.dropLast := by
  unfold compact_text_token at h
  cases hlast : stack.getLast? with
  | none => rw [hlast] at h; exact Except.noConfusion h
  | some m =>
    rw [hlast] at h
    dsimp only at h
    split_ifs at h <;> simp_all

lemma compact_weigh_open {b : Bool} {stack : List String} {tokens : List TextToken}
    {stack₂ : List String} {tok : TextToken} {m : String} {w : Nat}
    (hlast : stack.getLast? = some m)
    (h : compact_text_token stack tokens = .ok (stack₂, tok))
    (hw : CanWeighList b tokens w) :
    CanWeigh b tok (m.length + w) := by
  unfold compact_text_token at h
  rw [hlast] at h
  dsimp only at h
  split_ifs at h with h1 h2 h3 h4
  · subst h1
    have htok : tok = .Italic tokens := by simp_all
    subst htok
    exact CanWeigh.italic b tokens w _ hw (Or.inl rfl)
  · subst h2
    have htok : tok = .Bold tokens := by simp_all
    subst htok
    exact CanWeigh.bold b tokens w _ hw (Or.inl rfl)
  · subst h3
    have htok : tok = .BoldItalic tokens := by simp_all
    subst htok
    exact CanWeigh.boldItalic b tokens w _ hw (Or.inl rfl)
  · have htok : tok = .Code tokens := by simp_all
    subst htok
    rcases h4 with h4 | h4 | h4 <;> subst h4
    · exact CanWeigh.code b tokens 1 w _ hw (by omega) (by omega) (Or.inl rfl)
    · exact CanWeigh.code b tokens 2 w _ hw (by omega) (by omega) (Or.inl rfl)
    · exact CanWeigh.code b tokens 3 w _ hw (by omega) (by omega) (Or.inl rfl)

lemma compact_weigh_closed {b : Bool} {stack : List String} {tokens : List TextToken}
    {stack₂ : List String} {tok : TextToken} {m : String} {w : Nat}
    (hlast : stack.getLast? = some m)
    (h : compact_text_token stack tokens = .ok (stack₂, tok))
    (hw : CanWeighList b tokens w) :
    CanWeigh b tok (m.length + w + m.length) := by
  unfold compact_text_token at h
  rw [hlast] at h
  dsimp only at h
  split_ifs at h with h1 h2 h3 h4
  · subst h1
    have htok : tok = .Italic tokens := by simp_all
    subst htok
    exact CanWeigh.italic b tokens w _ hw (Or.inr (by
      have hx : ("*" : String).length = 1 := rfl
      omega))
  · subst h2
    have htok : tok = .Bold tokens := by simp_all
    subst htok
    exact CanWeigh.bold b tokens w _ hw (Or.inr (by
      have hx : ("**" : String).length = 2 := rfl
      omega))
  · subst h3
    have htok : tok = .BoldItalic tokens := by simp_all
    subst htok
    exact CanWeigh.boldItalic b tokens w _ hw (Or.inr (by
      have hx : ("***" : String).length = 3 := rfl
      omega))
  · have htok : tok = .Code tokens := by simp_all
    subst htok
    rcases h4 with h4 | h4 | h4 <;> subst h4
    · exact CanWeigh.code b tokens 1 w _ hw (by omega) (by omega) (Or.inr (by
        have hx : ("`" : String).length = 1 := rfl
        omega))
    · exact CanWeigh.code b tokens 2 w _ hw (by omega) (by omega) (Or.inr (by
        have hx : ("``" : String).length = 2 := rfl
        omega))
    · exact CanWeigh.code b tokens 3 w _ hw (by omega) (by omega) (Or.inr (by
        have hx : ("```" : String).length = 3 := rfl
        omega))

lemma compact_of_style {stack : List String} {tokens : List TextToken}
    {m : String} {t : TextToken}
    (hlast : stack.getLast? = some m)
    (hst : styleNodeOfMarker m tokens = some t) :
    compact_text_token stack tokens = .ok (stack.dropLast, t) := by
  unfold styleNodeOfMarker at hst
  unfold compact_text_token
  rw [hlast]
  dsimp only
  split_ifs at hst ⊢ <;> simp_all

lemma close_advance {chars : List Char} {offset : Nat} {stack : List String}
    {c : Char} {last : String}
    (hc : chars[offset]? = some c) (hlast : stack.getLast? = some last)
    (hcl : is_styled_text_token_closure chars offset stack = true) :
    offset + last.length ≤ chars.length := by
  simp only [is_styled_text_token_closure] at hcl
  rw [read_run_go_eq chars _ _ offset (Nat.le_refl _)] at hcl
  have hgd : chars.getD offset ' ' = c := by
    simp [List.getD, hc]
  rw [hgd] at hcl
  have hlt : offset < chars.length := getElem?_some_lt hc
  have hbound : (((chars.drop offset).takeWhile (fun ch => ch == c)).length)
      ≤ chars.length - offset := by
    calc ((chars.drop offset).takeWhile (fun ch => ch == c)).length
        ≤ (chars.drop offset).length := takeWhile_length_le _
      _ = chars.length - offset := List.length_drop offset chars
  simp only [Bool.or_eq_true, decide_eq_true_eq, hlast, Option.some.injEq] at hcl
  rcases hcl with hcl | hcl
  · have hlen : last.length
        = ((chars.drop offset).takeWhile (fun ch => ch == c)).length := by
      rw [hcl]; exact mk_length _
    omega
  · have hle : last.length ≤ (String.join stack.reverse).length :=
      length_le_join_of_getLast hlast
    have hlen : (String.join stack.reverse).length
        = ((chars.drop offset).takeWhile (fun ch => ch == c)).length := by
      rw [← hcl]; exact mk_length _
    omega

/-! ### Weight bookkeeping -/

lemma canWeighList_append {b : Bool} {t : TextToken} {n : Nat} :
    ∀ {l : List TextToken} {m : Nat},
    CanWeighList b l m → CanWeigh b t n → CanWeighList b (l ++ [t]) (m + n) := by
  intro l
  induction l with
  | nil =>
    intro m hl ht
    cases hl
    have := CanWeighList.cons b t n [] 0 ht (CanWeighList.nil b)
    simpa using this
  | cons a l ih =>
    intro m hl ht
    cases hl with
    | cons _ _ n' _ m' ha hl' =>
      have := CanWeighList.cons b a n' (l ++ [t]) (m' + n) ha (ih hl' ht)
      have harith : n' + (m' + n) = n' + m' + n := by omega
      rw [harith] at this
      simpa using this

lemma takeWhile_head_pos {chars : List Char} {offset : Nat} {c : Char}
    (hc : chars[offset]? = some c) :
    1 ≤ ((chars.drop offset).takeWhile (fun ch => ch == c)).length := by
  rw [getElem?_some_drop hc, List.takeWhile_cons]
  simp

/-- Main invariant of the styled-token scanner, proved by induction on the
fuel: successful runs move the cursor forward within bounds, restore the
ambient delimiter stack (the loop pops exactly the marker pushed for it),
and the produced token accounts for exactly the consumed characters. -/
lemma gstt_inv (chars : List Char) : ∀ fuel : Nat,
    (∀ offset stack tok o₂ s₂,
       get_styled_text_token chars fuel offset stack = .ok (tok, o₂, s₂) →
       offset ≤ o₂ ∧ o₂ ≤ chars.length ∧ s₂ = stack ∧ CanWeigh true tok (o₂ - offset)) ∧
    (∀ spec offset stack tokens tok o₂ s₂, stack ≠ [] →
       gstt_loop chars spec fuel offset stack tokens = .ok (tok, o₂, s₂) →
       offset ≤ o₂ ∧ (offset ≤ chars.length → o₂ ≤ chars.length) ∧ s₂ = stack.dropLast ∧
       (∀ w m, CanWeighList true tokens w → stack.getLast? = some m →
          CanWeigh true tok (m.length + w + (o₂ - offset)))) := by
  intro fuel
  induction fuel with
  | zero =>
    refine ⟨?_, ?_⟩
    · intro offset stack tok o₂ s₂ h
      rw [get_styled_text_token] at h
      exact POutcome.noConfusion h
    · intro spec offset stack tokens tok o₂ s₂ _ h
      rw [gstt_loop] at h
      exact POutcome.noConfusion h
  | succ fuel ih =>
    obtain ⟨ihg, ihl⟩ := ih
    refine ⟨?_, ?_⟩
    · -- get_styled_text_token at fuel+1
      intro offset stack tok o₂ s₂ h
      rw [get_styled_text_token] at h
      cases hc : chars[offset]? with
      | none => rw [hc] at h; exact POutcome.noConfusion h
      | some spec_ch =>
        rw [hc] at h
        dsimp only at h
        have hlt : offset < chars.length := getElem?_some_lt hc
        rw [spec_run_go_eq chars spec_ch 3 offset] at h
        dsimp only at h
        set L := ((chars.drop offset).takeWhile (fun ch => ch == spec_ch)).length with hL
        have hL1 : 1 ≤ L := takeWhile_head_pos hc
        have hLb : L ≤ chars.length - offset := by
          have h1 : L ≤ (chars.drop offset).length := takeWhile_length_le _
          rwa [List.length_drop] at h1
        by_cases hend : offset + min 3 L = chars.length
        · rw [if_pos hend] at h
          simp only [POutcome.ok.injEq, Prod.mk.injEq] at h
          obtain ⟨h1, h2, h3⟩ := h
          refine ⟨by omega, by omega, h3.symm, ?_⟩
          have hidx : o₂ - offset = min 3 L := by omega
          rw [← h1, hidx]
          exact CanWeigh.emptyRun _ (by omega) (by omega)
        · rw [if_neg hend] at h
          have hne : stack ++ [(⟨List.replicate (min 3 L) spec_ch⟩ : String)] ≠ [] := by
            simp
          obtain ⟨ho1, ho2, hs, hw⟩ :=
            ihl spec_ch (offset + min 3 L) _ [] tok o₂ s₂ hne h
          have hmlen : (⟨List.replicate (min 3 L) spec_ch⟩ : String).length = min 3 L := by
            rw [mk_length, List.length_replicate]
          have hwt := hw 0 (⟨List.replicate (min 3 L) spec_ch⟩ : String)
            (CanWeighList.nil true) (by simp)
          refine ⟨by omega, ho2 (by omega), ?_, ?_⟩
          · rw [hs]; simp
          · have harith : (⟨List.replicate (min 3 L) spec_ch⟩ : String).length + 0
                + (o₂ - (offset + min 3 L)) = o₂ - offset := by
              rw [hmlen]; omega
            rwa [harith] at hwt
    · -- gstt_loop at fuel+1
      intro spec offset stack tokens tok o₂ s₂ hne h
      rw [gstt_loop] at h
      obtain ⟨last, hlast⟩ := getLast?_ne_none hne
      cases hc : chars[offset]? with
      | none =>
        rw [hc] at h
        dsimp only at h
        rw [hlast] at h
        dsimp only at h
        cases hcomp : compact_text_token stack tokens with
        | error p => rw [hcomp] at h; exact POutcome.noConfusion h
        | ok pr =>
          obtain ⟨stack₂, tokc⟩ := pr
          rw [hcomp] at h
          simp only [POutcome.ok.injEq, Prod.mk.injEq] at h
          obtain ⟨h1, h2, h3⟩ := h
          refine ⟨by omega, fun hx => by omega, by rw [← h3]; exact compact_dropLast hcomp, ?_⟩
          intro w m hw hm
          have hwc := compact_weigh_open hm hcomp hw
          have harith : m.length + w + (o₂ - offset) = m.length + w := by omega
          rw [harith, ← h1]
          exact hwc
      | some ch =>
        rw [hc] at h
        dsimp only at h
        by_cases hsp : ch = spec
        · rw [if_pos hsp] at h
          rw [hlast] at h
          dsimp only at h
          by_cases hcl : is_styled_text_token_closure chars offset stack
          · rw [if_pos hcl] at h
            cases hcomp : compact_text_token stack tokens with
            | error p => rw [hcomp] at h; exact POutcome.noConfusion h
            | ok pr =>
              obtain ⟨stack₂, tokc⟩ := pr
              rw [hcomp] at h
              simp only [POutcome.ok.injEq, Prod.mk.injEq] at h
              obtain ⟨h1, h2, h3⟩ := h
              have hadv : offset + last.length ≤ chars.length :=
                close_advance hc hlast hcl
              refine ⟨by omega, fun _ => by omega,
                by rw [← h3]; exact compact_dropLast hcomp, ?_⟩
              intro w m hw hm
              have hlm : last = m := by
                rw [hlast] at hm; exact Option.some.inj hm
              subst hlm
              have hwc := compact_weigh_closed hm hcomp hw
              have harith : last.length + w + (o₂ - offset)
                  = last.length + w + last.length := by omega
              rw [harith, ← h1]
              exact hwc
          · rw [if_neg hcl] at h
            cases hg : get_styled_text_token chars fuel offset stack with
            | panic p => rw [hg] at h; exact POutcome.noConfusion h
            | diverge => rw [hg] at h; exact POutcome.noConfusion h
            | ok tr =>
              obtain ⟨tokn, onn, sn⟩ := tr
              rw [hg] at h
              dsimp only at h
              obtain ⟨hgo1, hgo2, hgs, hgw⟩ := ihg offset stack tokn onn sn hg
              rw [hgs] at h
              obtain ⟨hl1, hl2, hl3, hl4⟩ :=
                ihl spec onn stack (tokens ++ [tokn]) tok o₂ s₂ hne h
              refine ⟨by omega, fun hx => hl2 (by omega), hl3, ?_⟩
              intro w m hw hm
              have hw2 : CanWeighList true (tokens ++ [tokn]) (w + (onn - offset)) :=
                canWeighList_append hw hgw
              have := hl4 (w + (onn - offset)) m hw2 hm
              have harith : m.length + (w + (onn - offset)) + (o₂ - onn)
                  = m.length + w + (o₂ - offset) := by omega
              rwa [harith] at this
        · rw [if_neg hsp] at h
          by_cases hsb : ch = '*' ∨ ch = btick
          · rw [if_pos hsb] at h
            cases hg : get_styled_text_token chars fuel offset stack with
            | panic p => rw [hg] at h; exact POutcome.noConfusion h
            | diverge => rw [hg] at h; exact POutcome.noConfusion h
            | ok tr =>
              obtain ⟨tokn, onn, sn⟩ := tr
              rw [hg] at h
              dsimp only at h
              obtain ⟨hgo1, hgo2, hgs, hgw⟩ := ihg offset stack tokn onn sn hg
              rw [hgs] at h
              obtain ⟨hl1, hl2, hl3, hl4⟩ :=
                ihl spec onn stack (tokens ++ [tokn]) tok o₂ s₂ hne h
              refine ⟨by omega, fun hx => hl2 (by omega), hl3, ?_⟩
              intro w m hw hm
              have hw2 : CanWeighList true (tokens ++ [tokn]) (w + (onn - offset)) :=
                canWeighList_append hw hgw
              have := hl4 (w + (onn - offset)) m hw2 hm
              have harith : m.length + (w + (onn - offset)) + (o₂ - onn)
                  = m.length + w + (o₂ - offset) := by omega
              rwa [harith] at this
          · rw [if_neg hsb] at h
            rw [parse_text_eq] at h
            dsimp only at h
            set TL := ((chars.drop offset).takeWhile plainChar).length with hTL
            have hlt : offset < chars.length := getElem?_some_lt hc
            have hTb : TL ≤ chars.length - offset := by
              have h1 : TL ≤ (chars.drop offset).length := takeWhile_length_le _
              rwa [List.length_drop] at h1
            obtain ⟨hl1, hl2, hl3, hl4⟩ :=
              ihl spec (offset + TL) stack
                (tokens ++ [.Text ⟨(chars.drop offset).takeWhile plainChar⟩]) tok o₂ s₂ hne h
            refine ⟨by omega, fun hx => hl2 (by omega), hl3, ?_⟩
            intro w m hw hm
            have hwt : CanWeigh true (.Text ⟨(chars.drop offset).takeWhile plainChar⟩) TL := by
              have := CanWeigh.text true (⟨(chars.drop offset).takeWhile plainChar⟩ : String)
              rwa [mk_length] at this
            have hw2 := canWeighList_append hw hwt
            have := hl4 (w + TL) m hw2 hm
            have harith : m.length + (w + TL) + (o₂ - (offset + TL))
                = m.length + w + (o₂ - offset) := by omega
            rwa [harith] at this


/-- Invariant of the `parse_text_tokens` scanning loop: successful runs
move the cursor forward within bounds, leave the stack unchanged, and the
emitted tokens account for exactly the consumed characters. -/
lemma ptt_inv (chars : List Char) : ∀ fuel offset stack tokens toks o₂ s₂,
    ptt_loop chars fuel offset stack tokens = .ok (toks, o₂, s₂) →
    offset ≤ o₂ ∧ (offset ≤ chars.length → o₂ ≤ chars.length) ∧ s₂ = stack ∧
    (∀ w, CanWeighList true tokens w → CanWeighList true toks (w + (o₂ - offset))) := by
  intro fuel
  induction fuel with
  | zero =>
    intro offset stack tokens toks o₂ s₂ h
    rw [ptt_loop] at h
    exact POutcome.noConfusion h
  | succ fuel ih =>
    intro offset stack tokens toks o₂ s₂ h
    rw [ptt_loop] at h
    cases hc : chars[offset]? with
    | none =>
      rw [hc] at h
      dsimp only at h
      simp only [POutcome.ok.injEq, Prod.mk.injEq] at h
      obtain ⟨h1, h2, h3⟩ := h
      refine ⟨by omega, fun hx => by omega, h3.symm, ?_⟩
      intro w hw
      have harith : w + (o₂ - offset) = w := by omega
      rw [harith, ← h1]
      exact hw
    | some ch =>
      rw [hc] at h
      dsimp only at h
      have hlt : offset < chars.length := getElem?_some_lt hc
      by_cases hnl : ch = '\n'
      · rw [if_pos hnl] at h
        simp only [POutcome.ok.injEq, Prod.mk.injEq] at h
        obtain ⟨h1, h2, h3⟩ := h
        refine ⟨by omega, fun hx => by omega, h3.symm, ?_⟩
        intro w hw
        have harith : w + (o₂ - offset) = w := by omega
        rw [harith, ← h1]
        exact hw
      · rw [if_neg hnl] at h
        by_cases hsb : ch = '*' ∨ ch = btick
        · rw [if_pos hsb] at h
          cases hg : get_styled_text_token chars fuel offset stack with
          | panic p => rw [hg] at h; exact POutcome.noConfusion h
          | diverge => rw [hg] at h; exact POutcome.noConfusion h
          | ok tr =>
            obtain ⟨tokn, onn, sn⟩ := tr
            rw [hg] at h
            dsimp only at h
            obtain ⟨hgo1, hgo2, hgs, hgw⟩ := (gstt_inv chars fuel).1 offset stack tokn onn sn hg
            rw [hgs] at h
            obtain ⟨hl1, hl2, hl3, hl4⟩ := ih onn stack (tokens ++ [tokn]) toks o₂ s₂ h
            refine ⟨by omega, fun hx => hl2 (by omega), hl3, ?_⟩
            intro w hw
            have := hl4 (w + (onn - offset)) (canWeighList_append hw hgw)
            have harith : w + (onn - offset) + (o₂ - onn) = w + (o₂ - offset) := by omega
            rwa [harith] at this
        · rw [if_neg hsb] at h
          rw [parse_text_eq] at h
          dsimp only at h
          set TL := ((chars.drop offset).takeWhile plainChar).length with hTL
          have hTb : TL ≤ chars.length - offset := by
            have h1 : TL ≤ (chars.drop offset).length := takeWhile_length_le _
            rwa [List.length_drop] at h1
          obtain ⟨hl1, hl2, hl3, hl4⟩ :=
            ih (offset + TL) stack
              (tokens ++ [.Text ⟨(chars.drop offset).takeWhile plainChar⟩]) toks o₂ s₂ h
          refine ⟨by omega, fun hx => hl2 (by omega), hl3, ?_⟩
          intro w hw
          have hwt : CanWeigh true (.Text ⟨(chars.drop offset).takeWhile plainChar⟩) TL := by
            have := CanWeigh.text true (⟨(chars.drop offset).takeWhile plainChar⟩ : String)
            rwa [mk_length] at this
          have := hl4 (w + TL) (canWeighList_append hw hwt)
          have harith : w + TL + (o₂ - (offset + TL)) = w + (o₂ - offset) := by omega
          rwa [harith] at this

/-- Invariant of `parse_text_tokens`: cursor bounds, stack preservation,
and exact character accounting of the returned token sequence. -/
lemma parse_text_tokens_inv {chars : List Char} {fuel offset : Nat}
    {stack : List String} {toks : List TextToken} {o₂ : Nat} {s₂ : List String}
    (h : parse_text_tokens chars fuel offset stack = .ok (toks, o₂, s₂)) :
    offset ≤ o₂ ∧ (offset ≤ chars.length → o₂ ≤ chars.length) ∧ s₂ = stack ∧
    CanWeighList true toks (o₂ - offset) := by
  unfold parse_text_tokens at h
  split_ifs at h with he
  · simp only [POutcome.ok.injEq, Prod.mk.injEq] at h
    obtain ⟨h1, h2, h3⟩ := h
    refine ⟨by omega, fun hx => by omega, h3.symm, ?_⟩
    have harith : o₂ - offset = 0 := by omega
    rw [harith, ← h1]
    exact CanWeighList.nil true
  · obtain ⟨hl1, hl2, hl3, hl4⟩ := ptt_inv chars fuel offset stack [] toks o₂ s₂ h
    refine ⟨hl1, hl2, hl3, ?_⟩
    have := hl4 0 (CanWeighList.nil true)
    have harith : 0 + (o₂ - offset) = o₂ - offset := by omega
    rwa [harith] at this

/-- Invariant of `parse_header_or_text`: the cursor moves forward and
stays within bounds, and the stack is unchanged on success. -/
lemma pho_inv {chars : List Char} {fuel offset : Nat} {stack : List String}
    {tok : MarkdownToken} {o₂ : Nat} {s₂ : List String}
    (h : parse_header_or_text chars fuel offset stack = .ok (tok, o₂, s₂)) :
    offset ≤ o₂ ∧ o₂ ≤ chars.length ∧ s₂ = stack := by
  unfold parse_header_or_text at h
  rw [count_hashes_go_eq chars _ offset (Nat.le_refl _)] at h
  dsimp only at h
  set HL := ((chars.drop offset).takeWhile (fun ch => ch == '#')).length with hHL
  have hHb : HL ≤ chars.length - offset := by
    have h1 : HL ≤ (chars.drop offset).length := takeWhile_length_le _
    rwa [List.length_drop] at h1
  split_ifs at h with he
  · simp only [POutcome.ok.injEq, Prod.mk.injEq] at h
    obtain ⟨h1, h2, h3⟩ := h
    exact ⟨by omega, by omega, h3.symm⟩
  · cases hc2 : chars[offset + HL]? with
    | none => rw [hc2] at h; exact POutcome.noConfusion h
    | some c =>
      rw [hc2] at h
      dsimp only at h
      have hlt2 : offset + HL < chars.length := getElem?_some_lt hc2
      by_cases hsp2 : c = ' '
      · rw [if_pos hsp2] at h
        unfold parse_header at h
        cases hptt : parse_text_tokens chars fuel (offset + HL + 1) stack with
        | panic p => rw [hptt] at h; exact POutcome.noConfusion h
        | diverge => rw [hptt] at h; exact POutcome.noConfusion h
        | ok tr =>
          obtain ⟨toks, ot, st⟩ := tr
          rw [hptt] at h
          dsimp only at h
          simp only [POutcome.ok.injEq, Prod.mk.injEq] at h
          obtain ⟨h1, h2, h3⟩ := h
          obtain ⟨hp1, hp2, hp3, _⟩ := parse_text_tokens_inv hptt
          refine ⟨by omega, ?_, by rw [← h3]; exact hp3⟩
          have := hp2 (by omega)
          omega
      · rw [if_neg hsp2] at h
        exact POutcome.noConfusion h

/-- Invariant of the top-level `parse` dispatch loop: the cursor moves
forward and stays within bounds on success. -/
lemma parse_loop_inv (chars : List Char) : ∀ fuel offset stack acc res o₂ s₂,
    parse_loop chars fuel offset stack acc = .ok (res, o₂, s₂) →
    offset ≤ o₂ ∧ (offset ≤ chars.length → o₂ ≤ chars.length) := by
  intro fuel
  induction fuel with
  | zero =>
    intro offset stack acc res o₂ s₂ h
    rw [parse_loop] at h
    exact POutcome.noConfusion h
  | succ fuel ih =>
    intro offset stack acc res o₂ s₂ h
    rw [parse_loop] at h
    cases hc : chars[offset]? with
    | none =>
      rw [hc] at h
      dsimp only at h
      simp only [POutcome.ok.injEq, Prod.mk.injEq] at h
      obtain ⟨h1, h2, h3⟩ := h
      exact ⟨by omega, fun hx => by omega⟩
    | some ch =>
      rw [hc] at h
      dsimp only at h
      have hlt : offset < chars.length := getElem?_some_lt hc
      by_cases hh : ch = '#'
      · rw [if_pos hh] at h
        cases hp : parse_header_or_text chars fuel offset stack with
        | panic p => rw [hp] at h; exact POutcome.noConfusion h
        | diverge => rw [hp] at h; exact POutcome.noConfusion h
        | ok tr =>
          obtain ⟨tokb, ob, sb⟩ := tr
          rw [hp] at h
          dsimp only at h
          obtain ⟨hb1, hb2, _⟩ := pho_inv hp
          obtain ⟨hr1, hr2⟩ := ih ob sb (acc ++ [tokb]) res o₂ s₂ h
          exact ⟨by omega, fun hx => hr2 (by omega)⟩
      · rw [if_neg hh] at h
        by_cases hn : ch = '\n'
        · rw [if_pos hn] at h
          unfold parse_new_line at h
          dsimp only at h
          obtain ⟨hr1, hr2⟩ := ih (offset+1) stack (acc ++ [.NewLine]) res o₂ s₂ h
          exact ⟨by omega, fun hx => hr2 (by omega)⟩
        · rw [if_neg hn] at h
          exact POutcome.noConfusion h


/-- Running the top-level dispatch loop over a trailing block of `m`
newline characters emits exactly `m` NewLine tokens. -/
lemma parse_loop_newlines (chars : List Char) : ∀ (m : Nat), ∀ fuel offset stack acc,
    chars.drop offset = List.replicate m '\n' →
    parse_loop chars (fuel + m + 1) offset stack acc =
      .ok (acc ++ List.replicate m .NewLine, offset + m, stack) := by
  intro m
  induction m with
  | zero =>
    intro fuel offset stack acc hd
    have hn : chars[offset]? = none := by
      have hl : chars.length ≤ offset := by
        have := congrArg List.length hd
        simp [List.length_drop] at this
        omega
      exact List.getElem?_eq_none hl
    rw [parse_loop, hn]
    simp
  | succ m ih =>
    intro fuel offset stack acc hd
    have hne : chars.drop offset ≠ [] := by rw [hd]; simp
    have hc : chars[offset]? = some '\n' := by
      rw [← List.head?_drop, hd]
      simp [List.replicate_succ]
    rw [show fuel + (m+1) + 1 = (fuel + m + 1) + 1 from by omega]
    rw [parse_loop, hc]
    dsimp only
    rw [if_neg (by decide : ¬('\n' = '#')), if_pos rfl]
    unfold parse_new_line
    dsimp only
    have hd2 : chars.drop (offset + 1) = List.replicate m '\n' := by
      have h1 : chars.drop (offset + 1) = (chars.drop offset).drop 1 := by
        rw [List.drop_drop]
      rw [h1, hd]
      simp [List.replicate_succ]
    rw [ih fuel (offset+1) stack (acc ++ [MarkdownToken.NewLine]) hd2]
    have h1 : offset + 1 + m = offset + (m + 1) := by omega
    have h2 : (acc ++ [MarkdownToken.NewLine]) ++ List.replicate m MarkdownToken.NewLine
        = acc ++ List.replicate (m+1) MarkdownToken.NewLine := by
      simp [List.replicate_succ]
    rw [h1, h2]

/-- When everything from the cursor to the end of input is a hash, the
hash-counting loop of `parse_header_or_text` consumes the rest of the
input and the function returns an empty paragraph. -/
lemma pho_all_hashes {chars : List Char} {fuel offset : Nat} {stack : List String}
    (hoff : offset ≤ chars.length)
    (hall : ∀ c ∈ chars.drop offset, c = '#') :
    parse_header_or_text chars fuel offset stack = .ok (.Paragraph [], chars.length, stack) := by
  unfold parse_header_or_text
  rw [count_hashes_go_eq chars _ offset (Nat.le_refl _)]
  dsimp only
  have htw : (chars.drop offset).takeWhile (fun ch => ch == '#') = chars.drop offset :=
    List.takeWhile_eq_self_iff.mpr (fun x hx => by rw [hall x hx]; exact beq_self_eq_true '#')
  rw [htw, List.length_drop]
  rw [if_pos (by omega)]
  have h1 : offset + (chars.length - offset) = chars.length := by omega
  rw [h1]

/-- Parsing an input that is nothing but hashes yields a single empty
paragraph token. -/
lemma parse_hashes (n : Nat) (f : Nat) (hn : 1 ≤ n) :
    parse (f + 2) ⟨List.replicate n '#'⟩ = .ok [.Paragraph []] := by
  unfold parse
  have hdata : (⟨List.replicate n '#'⟩ : String).data = List.replicate n '#' := rfl
  rw [hdata]
  rw [show f + 2 = (f + 1) + 1 from by omega]
  rw [parse_loop]
  have hc : (List.replicate n '#')[0]? = some '#' := by
    cases n with
    | zero => omega
    | succ k => simp [List.replicate_succ]
  rw [hc]
  dsimp only
  rw [if_pos rfl]
  rw [pho_all_hashes (by simp) (by intro c hc2; simp at hc2; exact hc2.2)]
  dsimp only
  rw [parse_loop]
  have hn2 : (List.replicate n '#')[(List.replicate n '#' : List Char).length]? = none :=
    List.getElem?_eq_none (Nat.le_refl _)
  rw [hn2]
  simp

/-- A run of exactly `n` copies of `c` at the cursor, terminated by a
different character, is exactly what the hash/run takeWhile reads. -/
lemma takeWhile_run_exact {chars : List Char} {c : Char} : ∀ (n : Nat), ∀ (offset : Nat),
    (∀ i, i < n → chars[offset+i]? = some c) →
    ∀ d, chars[offset+n]? = some d → d ≠ c →
    (chars.drop offset).takeWhile (fun ch => ch == c) = List.replicate n c := by
  intro n
  induction n with
  | zero =>
    intro offset _ d hd hdc
    have h0 : chars[offset]? = some d := by simpa using hd
    rw [getElem?_some_drop h0, List.takeWhile_cons]
    simp [hdc]
  | succ n ih =>
    intro offset hall d hd hdc
    have h0 : chars[offset]? = some c := by simpa using hall 0 (by omega)
    rw [getElem?_some_drop h0, List.takeWhile_cons]
    simp only [beq_self_eq_true, if_true]
    rw [List.replicate_succ]
    congr 1
    apply ih (offset+1) ?_ d ?_ hdc
    · intro i hi
      have := hall (i+1) (by omega)
      rwa [show offset + (i+1) = offset + 1 + i from by omega] at this
    · rwa [show offset + 1 + n = offset + (n+1) from by omega]


lemma canWeigh_text_inv {b : Bool} {s : String} {n : Nat}
    (h : CanWeigh b (.Text s) n) :
    n = s.length ∨ (b = true ∧ s = "" ∧ 1 ≤ n ∧ n ≤ 3) := by
  cases h with
  | text => exact Or.inl rfl
  | emptyRun n h1 h2 => exact Or.inr ⟨rfl, rfl, h1, h2⟩

/-! ### Claim theorems -/

/-- C1: for the input "# Hello *World **123***!", parse returns exactly
one level-1 Header whose children are Text "Hello ", an Italic node
containing Text "World " and a Bold node containing Text "123", and
Text "!" — the single "***" run closes the open Bold marker (consuming
two stars) and then the open Italic marker (consuming the last star). -/
theorem C1_simultaneous_close :
    parse 64 "# Hello *World **123***!" =
      .ok [.Header .One [.Text "Hello ",
        .Italic [.Text "World ", .Bold [.Text "123"]], .Text "!"]] := rfl

/-- C2: with a non-empty stack, the run at the cursor is recognized as a
close exactly when the maximal run of that character equals the top
marker or the concatenation of all open markers from top to bottom (the
reversed stack); on a recognized close only the top marker is popped and
only that marker's length of characters is consumed. -/
theorem C2_close_decision :
    ∀ (chars : List Char) (offset : Nat) (stack : List String) (m : String),
    stack.getLast? = some m →
    ((is_styled_text_token_closure chars offset stack = true ↔
        maximal_run chars offset = m ∨
        maximal_run chars offset = String.join stack.reverse) ∧
     (∀ fuel tokens spec, chars[offset]? = some spec →
        is_styled_text_token_closure chars offset stack = true →
        gstt_loop chars spec (fuel+1) offset stack tokens =
          match compact_text_token stack tokens with
          | .ok (stack₂, tok) => .ok (tok, offset + m.length, stack₂)
          | .error p => .panic p) ∧
     (∀ tokens stack₂ tok, compact_text_token stack tokens = .ok (stack₂, tok) →
        stack₂ = stack.dropLast)) := by
  intro chars offset stack m hlast
  refine ⟨?_, ?_, ?_⟩
  · simp only [is_styled_text_token_closure]
    rw [read_run_go_eq chars _ _ offset (Nat.le_refl _)]
    rw [hlast]
    simp only [Bool.or_eq_true, decide_eq_true_eq, Option.some.injEq, maximal_run]
    constructor
    · rintro (h | h)
      · exact Or.inl h.symm
      · exact Or.inr h
    · rintro (h | h)
      · exact Or.inl h.symm
      · exact Or.inr h
  · intro fuel tokens spec hc hcl
    rw [gstt_loop, hc]
    dsimp only
    rw [if_pos rfl, hlast]
    dsimp only
    rw [if_pos hcl]
  · intro tokens stack₂ tok h
    exact compact_dropLast h

/-- C2 witness: on input consisting of a single star, with the stack
holding one open "*" marker, the closure test fires and the loop pops
that marker, consuming one character. -/
theorem C2_close_decision_witness :
    gstt_loop ['*'] '*' 1 0 ["*"] [] = .ok (.Italic [], 0 + ("*" : String).length, []) := by
  have h := (C2_close_decision ['*'] 0 ["*"] "*" rfl).2.1 0 [] '*' rfl (by decide)
  exact h.trans rfl

/-- C3 counterexample: a get_styled_text_token call on the single-star
input consumes one character but returns the empty Text node, which
under the strict accounting of the claim (text content or delimiters of
returned style nodes only) accounts for zero characters, not one. -/
theorem C3_counterexample :
    get_styled_text_token ['*'] 1 0 [] = .ok (.Text "", 1, []) ∧
    ¬ CanWeigh false (.Text "") (1 - 0) := by
  refine ⟨rfl, ?_⟩
  intro h
  rcases canWeigh_text_inv h with h1 | h1
  · have h0 : ("" : String).length = 0 := rfl
    omega
  · exact Bool.noConfusion h1.1

/-- C3 (amended): every inline-resolver call consumes a contiguous,
in-bounds span, and the returned tokens account for exactly the consumed
characters — where, in addition to the claim's strict accounting (text
content, opening delimiter runs, and equally long closing runs of
returned style nodes), an empty Text node may stand for a trailing
delimiter run of 1 to 3 characters at end of input. -/
theorem C3_amended_span :
    ∀ (chars : List Char) (fuel offset : Nat) (stack : List String),
    (∀ s o₂, parse_text chars offset = (.Text s, o₂) →
       o₂ = offset + s.length ∧ CanWeigh false (.Text s) (o₂ - offset)) ∧
    (∀ tok o₂ s₂, get_styled_text_token chars fuel offset stack = .ok (tok, o₂, s₂) →
       offset ≤ o₂ ∧ o₂ ≤ chars.length ∧ CanWeigh true tok (o₂ - offset)) ∧
    (∀ toks o₂ s₂, parse_text_tokens chars fuel offset stack = .ok (toks, o₂, s₂) →
       offset ≤ o₂ ∧ (offset ≤ chars.length → o₂ ≤ chars.length) ∧
       CanWeighList true toks (o₂ - offset)) := by
  intro chars fuel offset stack
  refine ⟨?_, ?_, ?_⟩
  · intro s o₂ h
    rw [parse_text_eq] at h
    simp only [Prod.mk.injEq, TextToken.Text.injEq] at h
    obtain ⟨h1, h2⟩ := h
    have hlen : s.length = ((chars.drop offset).takeWhile plainChar).length := by
      rw [← h1, mk_length]
    refine ⟨by omega, ?_⟩
    have harith : o₂ - offset = s.length := by omega
    rw [harith]
    exact CanWeigh.text false s
  · intro tok o₂ s₂ h
    obtain ⟨h1, h2, _, h4⟩ := (gstt_inv chars fuel).1 offset stack tok o₂ s₂ h
    exact ⟨h1, h2, h4⟩
  · intro toks o₂ s₂ h
    obtain ⟨h1, h2, _, h4⟩ := parse_text_tokens_inv h
    exact ⟨h1, h2, h4⟩

/-- C3 witness: a fully closed italic span consumes characters 0 to 3 of
the three-character input and its token accounts for all three. -/
theorem C3_amended_span_witness :
    get_styled_text_token ['*', 'a', '*'] 9 0 [] = .ok (.Italic [.Text "a"], 3, []) ∧
    (0 ≤ 3 ∧ 3 ≤ ['*', 'a', '*'].length ∧ CanWeigh true (.Italic [.Text "a"]) (3 - 0)) :=
  ⟨rfl, (C3_amended_span ['*', 'a', '*'] 9 0 []).2.1 (.Italic [.Text "a"]) 3 [] rfl⟩

/-- C5: the failing inputs for the claim that parse never aborts.  A
top-level character other than a hash or newline hits the source's
panic! (markdown.rs:56), and a hash run not followed by a space hits the
source's todo! (markdown.rs:94); neither is a typed failure result or a
fallback token. -/
theorem C5_panics :
    parse 16 "x" = .panic (.unexpectedToken 'x') ∧
    parse 16 "#x" = .panic .todoTextParsing := ⟨rfl, rfl⟩

/-- C6 counterexample: the spec's own boundary example "*text" (an input
with an unterminated delimiter) crashes the parser, because the
top-level dispatch panics on a leading star before the inline resolver
is ever reached. -/
theorem C6_counterexample :
    parse 16 "*text" = .panic (.unexpectedToken '*') := rfl

/-- C6 (amended): when the end of input is reached with an open style
marker on the stack, the marker is popped and the accumulated children
are wrapped in the style node named by that marker, with no error;
parse "# *text" = [Header 1 [Italic [Text "text"]]].  The claim's final
clause is amended: an unterminated delimiter never crashes the inline
resolver, but top-level inputs whose first character is neither a hash
nor a newline (such as the bare "*text") still panic in the block
driver. -/
theorem C6_amended :
    (parse 32 "# *text" = .ok [.Header .One [.Italic [.Text "text"]]]) ∧
    (∀ (chars : List Char) (spec : Char) (fuel offset : Nat) (stack : List String)
       (tokens : List TextToken) (m : String) (wrapTok : TextToken),
       chars.length ≤ offset → stack.getLast? = some m →
       styleNodeOfMarker m tokens = some wrapTok →
       gstt_loop chars spec (fuel+1) offset stack tokens =
         .ok (wrapTok, offset, stack.dropLast)) := by
  refine ⟨rfl, ?_⟩
  intro chars spec fuel offset stack tokens m wrapTok hlen hlast hst
  rw [gstt_loop]
  rw [List.getElem?_eq_none hlen]
  dsimp only
  rw [hlast]
  dsimp only
  rw [compact_of_style hlast hst]

/-- C6 witness: at end of input with an open "*" marker and one
accumulated child, the loop wraps the child in an Italic node and pops
the marker. -/
theorem C6_amended_witness :
    gstt_loop [] '*' 1 0 ["*"] [.Text "x"] = .ok (.Italic [.Text "x"], 0, []) := by
  have h := C6_amended.2 [] '*' 0 0 ["*"] [.Text "x"] "*" (.Italic [.Text "x"])
    (by simp) rfl rfl
  simpa using h


/-- C7: whenever the hash-counting loop reaches the end of input (the
input or its tail from the cursor consists solely of hash characters),
parse_header_or_text returns an empty-bodied Paragraph token with no
failure, and parse of an all-hash input returns exactly that token. -/
theorem C7_trailing_hashes :
    (∀ (chars : List Char) (fuel offset : Nat) (stack : List String),
       offset ≤ chars.length →
       (∀ c ∈ chars.drop offset, c = '#') →
       parse_header_or_text chars fuel offset stack =
         .ok (.Paragraph [], chars.length, stack)) ∧
    (∀ n f : Nat, 1 ≤ n →
       parse (f + 2) ⟨List.replicate n '#'⟩ = .ok [.Paragraph []]) :=
  ⟨fun _ _ _ _ hoff hall => pho_all_hashes hoff hall,
   fun n f hn => parse_hashes n f hn⟩

/-- C7 witness: a single hash parses to one empty paragraph. -/
theorem C7_trailing_hashes_witness :
    parse 2 ⟨List.replicate 1 '#'⟩ = .ok [.Paragraph []] :=
  C7_trailing_hashes.2 1 0 (by omega)

/-- C8: a leading run of exactly n hashes followed by a space produces a
Header whose level is the source's level selection applied to n, which
equals n for 1 ≤ n ≤ 6 and is clamped to Six for n ≥ 7. -/
theorem C8_level_clamp :
    ∀ (chars : List Char) (fuel offset : Nat) (stack : List String) (n : Nat),
    1 ≤ n →
    (∀ i, i < n → chars[offset+i]? = some '#') →
    chars[offset+n]? = some ' ' →
    (parse_header_or_text chars fuel offset stack =
      match parse_text_tokens chars fuel (offset+n+1) stack with
      | .ok (toks, o₂, s₂) => .ok (.Header (header_level_of_count n) toks, o₂, s₂)
      | .panic p => .panic p
      | .diverge => .diverge) ∧
    ((n ≤ 6 → (header_level_of_count n).toNat = n) ∧
     (7 ≤ n → header_level_of_count n = .Six)) := by
  intro chars fuel offset stack n hn hhash hsp
  constructor
  · unfold parse_header_or_text
    rw [count_hashes_go_eq chars _ offset (Nat.le_refl _)]
    dsimp only
    rw [takeWhile_run_exact n offset hhash ' ' hsp (by decide)]
    rw [List.length_replicate]
    have hlt : offset + n < chars.length := getElem?_some_lt hsp
    rw [if_neg (by omega)]
    rw [hsp]
    dsimp only
    rw [if_pos rfl]
    unfold parse_header
    rfl
  · constructor
    · intro h6
      interval_cases n <;> rfl
    · intro h7
      obtain ⟨k, rfl⟩ : ∃ k, n = k + 7 := ⟨n - 7, by omega⟩
      rfl

/-- C8 witness: seven hashes followed by a space clamp to level Six (whose
numeric value is 6, not 7). -/
theorem C8_level_clamp_witness :
    (parse_header_or_text "####### x".data 9 0 [] =
      match parse_text_tokens "####### x".data 9 8 [] with
      | .ok (toks, o₂, s₂) => .ok (.Header (header_level_of_count 7) toks, o₂, s₂)
      | .panic p => .panic p
      | .diverge => .diverge) ∧
    ((7 ≤ 6 → (header_level_of_count 7).toNat = 7) ∧
     (7 ≤ 7 → header_level_of_count 7 = .Six)) :=
  C8_level_clamp "####### x".data 9 0 [] 7 (by omega) (by decide) rfl

/-- C9: throughout a parse invocation the cursor is monotonically
non-decreasing and bounded by the input length: each component function,
started in bounds, exits at a position between its entry position and
the length of the character sequence, and the multi-character advance on
a confirmed close never moves the cursor past the end. -/
theorem C9_cursor_bounds :
    ∀ (chars : List Char) (fuel offset : Nat) (stack : List String),
    (∀ s o₂, parse_text chars offset = (.Text s, o₂) →
       offset ≤ o₂ ∧ (offset ≤ chars.length → o₂ ≤ chars.length)) ∧
    (∀ tok o₂ s₂, get_styled_text_token chars fuel offset stack = .ok (tok, o₂, s₂) →
       offset ≤ o₂ ∧ o₂ ≤ chars.length) ∧
    (∀ toks o₂ s₂, parse_text_tokens chars fuel offset stack = .ok (toks, o₂, s₂) →
       offset ≤ o₂ ∧ (offset ≤ chars.length → o₂ ≤ chars.length)) ∧
    (∀ tok o₂ s₂, parse_header_or_text chars fuel offset stack = .ok (tok, o₂, s₂) →
       offset ≤ o₂ ∧ o₂ ≤ chars.length) ∧
    (∀ acc res o₂ s₂, parse_loop chars fuel offset stack acc = .ok (res, o₂, s₂) →
       offset ≤ o₂ ∧ (offset ≤ chars.length → o₂ ≤ chars.length)) ∧
    (∀ c last, chars[offset]? = some c → stack.getLast? = some last →
       is_styled_text_token_closure chars offset stack = true →
       offset + last.length ≤ chars.length) := by
  intro chars fuel offset stack
  refine ⟨?_, ?_, ?_, ?_, ?_, ?_⟩
  · intro s o₂ h
    rw [parse_text_eq] at h
    simp only [Prod.mk.injEq, TextToken.Text.injEq] at h
    obtain ⟨h1, h2⟩ := h
    have hb : ((chars.drop offset).takeWhile plainChar).length ≤ chars.length - offset := by
      have hx : ((chars.drop offset).takeWhile plainChar).length ≤ (chars.drop offset).length :=
        takeWhile_length_le _
      rwa [List.length_drop] at hx
    exact ⟨by omega, fun hx => by omega⟩
  · intro tok o₂ s₂ h
    obtain ⟨h1, h2, _, _⟩ := (gstt_inv chars fuel).1 offset stack tok o₂ s₂ h
    exact ⟨h1, h2⟩
  · intro toks o₂ s₂ h
    obtain ⟨h1, h2, _, _⟩ := parse_text_tokens_inv h
    exact ⟨h1, h2⟩
  · intro tok o₂ s₂ h
    obtain ⟨h1, h2, _⟩ := pho_inv h
    exact ⟨h1, h2⟩
  · intro acc res o₂ s₂ h
    exact parse_loop_inv chars fuel offset stack acc res o₂ s₂ h
  · intro c last hc hlast hcl
    exact close_advance hc hlast hcl

/-- C9 witness: parsing the single-hash input moves the cursor from 0 to
1 = length. -/
theorem C9_cursor_bounds_witness :
    parse_loop ['#'] 2 0 [] [] = .ok ([.Paragraph []], 1, []) ∧
    ((0 : Nat) ≤ 1 ∧ ((0 : Nat) ≤ ['#'].length → 1 ≤ ['#'].length)) :=
  ⟨rfl, (C9_cursor_bounds ['#'] 2 0 []).2.2.2.2.1 [] [.Paragraph []] 1 [] rfl⟩

/-- C10: when the cursor stands at a run of 1-3 identical star or
backtick characters that extends exactly to the end of the input,
get_styled_text_token consumes the run and returns an empty Text node —
not a styled node — leaving the delimiter stack untouched; and
parse "# text*" = [Header 1 [Text "text", Text ""]]. -/
theorem C10_trailing_run :
    (∀ (chars : List Char) (fuel offset : Nat) (stack : List String) (c : Char),
       chars[offset]? = some c → (c = '*' ∨ c = btick) →
       chars.length ≤ offset + 3 →
       (∀ x ∈ chars.drop offset, x = c) →
       get_styled_text_token chars (fuel+1) offset stack =
         .ok (.Text "", chars.length, stack)) ∧
    parse 32 "# text*" = .ok [.Header .One [.Text "text", .Text ""]] := by
  refine ⟨?_, rfl⟩
  intro chars fuel offset stack c hc hstar hlen3 hall
  rw [get_styled_text_token, hc]
  dsimp only
  rw [spec_run_go_eq]
  dsimp only
  have htw : (chars.drop offset).takeWhile (fun ch => ch == c) = chars.drop offset :=
    List.takeWhile_eq_self_iff.mpr (fun x hx => by rw [hall x hx]; exact beq_self_eq_true c)
  rw [htw, List.length_drop]
  have hlt : offset < chars.length := getElem?_some_lt hc
  have hmin : min 3 (chars.length - offset) = chars.length - offset := by omega
  rw [hmin]
  rw [if_pos (by omega)]
  have h1 : offset + (chars.length - offset) = chars.length := by omega
  rw [h1]

/-- C10 witness: a single trailing star is consumed and becomes an empty
Text node with the stack unchanged. -/
theorem C10_trailing_run_witness :
    get_styled_text_token ['*'] 5 0 ["**"] = .ok (.Text "", 1, ["**"]) := by
  have h := C10_trailing_run.1 ['*'] 4 0 ["**"] '*' rfl (Or.inl rfl) (by simp)
    (by intro x hx; simpa using hx)
  simpa using h


/-- C4 counterexample: the input "a" contains no star and no backtick,
yet parse does not return a Text token at all — the top-level dispatch
panics on the unexpected leading character (the paragraph path of the
source is unimplemented). -/
theorem C4_counterexample :
    parse 16 "a" = .panic (.unexpectedToken 'a') := rfl

/-- C4 (amended): restricted to inputs the block driver accepts — a hash
run, one space, a nonempty body free of stars, backticks and newlines,
then a trailing newline run — parse returns exactly one Text token,
equal to the inline body (not the whole input), wrapped in the header,
plus one NewLine token per literal newline.  Inputs led by any other
character panic (see the counterexample). -/
theorem C4_amended_plain_text :
    ∀ (n m f : Nat) (body : String), 1 ≤ n → body ≠ "" →
    (∀ c ∈ body.data, ¬(c = '*' ∨ c = btick ∨ c = '\n')) →
    parse (f + m + 3)
        ⟨List.replicate n '#' ++ ' ' :: (body.data ++ List.replicate m '\n')⟩ =
      .ok (.Header (header_level_of_count n) [.Text body] :: List.replicate m .NewLine) := by
  intro n m f body hn hbody hplain
  obtain ⟨b0, bs, hbd⟩ : ∃ b0 bs, body.data = b0 :: bs := by
    cases hb : body.data with
    | nil => exact absurd (by cases body; simp_all) hbody
    | cons x xs => exact ⟨x, xs, rfl⟩
  set L : List Char := List.replicate n '#' ++ ' ' :: (body.data ++ List.replicate m '\n')
    with hL
  have hblen : 1 ≤ body.data.length := by rw [hbd]; simp
  have hlen : L.length = n + 1 + body.data.length + m := by
    rw [hL]; simp; omega
  have hdropn1 : L.drop (n+1) = body.data ++ List.replicate m '\n' := by
    have hL2 : L = (List.replicate n '#' ++ [' ']) ++ (body.data ++ List.replicate m '\n') := by
      rw [hL]; simp
    rw [hL2]
    rw [show n + 1 = ((List.replicate n '#' ++ [' ']) : List Char).length from by simp]
    exact List.drop_left _ _
  have hdropb : L.drop (n + 1 + body.data.length) = List.replicate m '\n' := by
    have h1 : L.drop (n + 1 + body.data.length) = (L.drop (n+1)).drop body.data.length := by
      rw [List.drop_drop]
    rw [h1, hdropn1]
    rw [show body.data.length = (body.data : List Char).length from rfl]
    exact List.drop_left _ _
  -- the inline scan of the body
  have hptt : parse_text_tokens L (f+m+2) (n+1) [] =
      .ok ([.Text body], n + 1 + body.data.length, []) := by
    unfold parse_text_tokens
    rw [if_neg (by omega)]
    rw [show f + m + 2 = (f + m + 1) + 1 from by omega]
    rw [ptt_loop]
    have hcb : L[n+1]? = some b0 := by
      rw [← List.head?_drop, hdropn1, hbd]
      simp
    rw [hcb]
    dsimp only
    have hb0 := hplain b0 (by rw [hbd]; simp)
    push_neg at hb0
    rw [if_neg hb0.2.2, if_neg (by push_neg; exact ⟨hb0.1, hb0.2.1⟩)]
    rw [parse_text_eq]
    have htwb : (L.drop (n+1)).takeWhile plainChar = body.data := by
      rw [hdropn1]
      rw [takeWhile_append_all (fun x hx => by
        unfold plainChar
        have hx2 := hplain x hx
        push_neg at hx2
        simp [hx2.1, hx2.2.1, hx2.2.2])]
      have hnl : (List.replicate m '\n').takeWhile plainChar = [] := by
        cases m with
        | zero => rfl
        | succ m' =>
          rw [List.replicate_succ, List.takeWhile_cons]
          simp [plainChar]
      rw [hnl, List.append_nil]
    rw [htwb]
    dsimp only
    have heta : (⟨body.data⟩ : String) = body := rfl
    rw [heta]
    rw [show f + m + 1 = (f + m) + 1 from by omega]
    rw [ptt_loop]
    cases m with
    | zero =>
      have hnone : L[n + 1 + body.data.length]? = none := by
        apply List.getElem?_eq_none
        omega
      rw [hnone]
      dsimp only
      rw [List.nil_append]
    | succ m' =>
      have hsome : L[n + 1 + body.data.length]? = some '\n' := by
        rw [← List.head?_drop, hdropb]
        simp [List.replicate_succ]
      rw [hsome]
      dsimp only
      rw [if_pos rfl]
      rw [List.nil_append]
  -- the header framing
  have hpho : parse_header_or_text L (f+m+2) 0 [] =
      .ok (.Header (header_level_of_count n) [.Text body], n + 1 + body.data.length, []) := by
    unfold parse_header_or_text
    rw [count_hashes_go_eq L _ 0 (Nat.le_refl _)]
    dsimp only
    rw [List.drop_zero]
    have htw : L.takeWhile (fun ch => ch == '#') = List.replicate n '#' := by
      rw [hL]
      rw [takeWhile_append_all (fun x hx => by
        rw [List.eq_of_mem_replicate hx]; exact beq_self_eq_true '#')]
      rw [List.takeWhile_cons]
      have hsp : (' ' == '#') = false := by decide
      rw [hsp]
      simp
    rw [htw, List.length_replicate]
    rw [show (0:Nat) + n = n from by omega]
    rw [if_neg (by omega)]
    have hspace : L[n]? = some ' ' := by
      rw [hL]
      rw [List.getElem?_append_right (by simp : (List.replicate n '#' : List Char).length ≤ n)]
      simp
    rw [hspace]
    dsimp only
    rw [if_pos rfl]
    unfold parse_header
    rw [hptt]
  -- the top-level loop
  unfold parse
  rw [show ((⟨L⟩ : String)).data = L from rfl]
  rw [show f + m + 3 = (f + m + 2) + 1 from by omega]
  rw [parse_loop]
  have hc0 : L[0]? = some '#' := by
    cases n with
    | zero => omega
    | succ k => rw [hL]; simp [List.replicate_succ]
  rw [hc0]
  dsimp only
  rw [if_pos rfl]
  rw [hpho]
  dsimp only
  rw [show f + m + 2 = (f + 1) + m + 1 from by omega]
  rw [parse_loop_newlines L m (f+1) (n + 1 + body.data.length) []
    ([] ++ [MarkdownToken.Header (header_level_of_count n) [.Text body]]) hdropb]
  simp

/-- C4 witness: parse "# ab" followed by one newline. -/
theorem C4_amended_plain_text_witness :
    parse 4 ⟨List.replicate 1 '#' ++ ' ' :: (("ab" : String).data ++ List.replicate 1 '\n')⟩ =
      .ok (.Header (header_level_of_count 1) [.Text "ab"] :: List.replicate 1 .NewLine) :=
  C4_amended_plain_text 1 1 0 "ab" (by omega) (by decide) (by decide)

end Enki
